import Mathlib

/-!
Verification development for the ellip repository's C++ utilities:
the reference-data generators (`src/tests/data/boost/carlson.cpp`,
`src/cpp/boost_ellippi_f64.cpp`), the test-data literal extractor
(`src/cpp/extract_test_data.cpp`) and the shared string utility
(`src/cpp/util.cpp`).  Strings are embedded as `List Char`; the external
math library functions, `std::stod` and the 17-digit floating point
formatting are opaque parameters (`stod` returns `Option` because
`std::stod` throws when no conversion is possible, which aborts a run).
-/

set_option autoImplicit false

/-- Whitespace characters of the default C locale, as used by
`std::istream_iterator<std::string>` extraction in `split_words`. -/
def wsChar (c : Char) : Bool :=
  c = ' ' || c = '\t' || c = '\n' || c = '\x0b' || c = '\x0c' || c = '\r'

/-- Accumulator-passing loop of `split_words`: `acc` holds the (reversed)
characters of the token currently being read. -/
def splitWordsAux : List Char → List Char → List (List Char)
  | [], acc => if acc.isEmpty then [] else [acc.reverse]
  | c :: cs, acc =>
    if wsChar c then
      if acc.isEmpty then splitWordsAux cs [] else acc.reverse :: splitWordsAux cs []
    else
      splitWordsAux cs (c :: acc)

/-- Model of `split_words` (src/cpp/util.cpp): tokenize a line at
whitespace, exactly as `std::istream_iterator<std::string>` does (skip
whitespace, then read non-whitespace characters until whitespace or end). -/
def split_words (s : List Char) : List (List Char) :=
  splitWordsAux s []

/-- Loop of the comma splitter of carlson.cpp: repeated
`std::getline(iss, token, ',')`.  `getline` consumes up to and including
the next comma; a call made at end of input fails and ends the loop, so a
trailing comma does not produce a trailing empty token. -/
def commaSplitAux : List Char → List Char → List (List Char)
  | [], acc => [acc.reverse]
  | c :: cs, acc =>
    if c = ',' then
      if cs.isEmpty then [acc.reverse] else acc.reverse :: commaSplitAux cs []
    else
      commaSplitAux cs (c :: acc)

/-- Model of `split` (src/tests/data/boost/carlson.cpp): split a line at
commas with `std::getline`; an empty line yields no tokens. -/
def commaSplit (s : List Char) : List (List Char) :=
  if s.isEmpty then [] else commaSplitAux s []

/-- Sequential `std::stod` over the first tokens of a row
(`args.push_back(std::stod(tokens[i]))` in process_carlson); `none` when
some call throws, which aborts the whole run. -/
def stodAll {D : Type} (stod : List Char → Option D) : List (List Char) → Option (List D)
  | [] => some []
  | t :: ts =>
    match stod t with
    | none => none
    | some d =>
      match stodAll stod ts with
      | none => none
      | some ds => some (d :: ds)

/-- Model of `process_carlson` (src/tests/data/boost/carlson.cpp), line
loop only: skip empty lines, skip lines with fewer than `nargs` comma
fields, parse the first `nargs` fields with `stod`, apply `func`, and
write the parsed values and the result comma-separated (each field
rendered by the 17-significant-digit formatter `fmt`).  The result is
`none` when a required field does not parse (`std::stod` throws and the
program aborts). -/
def process_carlson {D : Type} (stod : List Char → Option D) (func : List D → D)
    (fmt : D → List Char) (nargs : Nat) : List (List Char) → Option (List (List Char))
  | [] => some []
  | line :: rest =>
    if line.isEmpty then process_carlson stod func fmt nargs rest
    else
      let tokens := commaSplit line
      if tokens.length < nargs then process_carlson stod func fmt nargs rest
      else
        match stodAll stod (tokens.take nargs) with
        | none => none
        | some args =>
          match process_carlson stod func fmt nargs rest with
          | none => none
          | some out => some ((List.intercalate (',' :: []) (args.map fmt) ++ ',' :: fmt (func args)) :: out)

/-- Rows the carlson generator keeps: non-empty and with at least `nargs`
comma-separated fields. -/
def validRow (nargs : Nat) (line : List Char) : Bool :=
  !line.isEmpty && decide (nargs ≤ (commaSplit line).length)

/-- Model of one `process_carlson` invocation as run from `main` in
carlson.cpp, at the file level: `fIn = none` models an input file that
cannot be opened (every `getline` on the failed stream fails at once, so
the loop body never runs).  The function performs no open check and
writes nothing to `cerr`; `main` then returns 0.  Result is
`(exit code, cerr lines)`, `none` when the run aborts on a parse error. -/
def carlsonMain {D : Type} (stod : List Char → Option D) (func : List D → D)
    (fmt : D → List Char) (nargs : Nat) (fIn : Option (List (List Char))) :
    Option (Nat × List (List Char)) :=
  match process_carlson stod func fmt nargs (fIn.getD []) with
  | none => none
  | some _ => some (0, [])

/-- Diagnostic printed by boost_ellippi_f64.cpp when a file cannot be
opened. -/
def cannotOpenMsg : List Char := "Cannot open file".toList

/-- Model of one loop iteration of `main` in src/cpp/boost_ellippi_f64.cpp:
`inp = split_words(line); k = stod(inp[1]); v = stod(inp[0]);
ans = ellip3(k, v, f64_policy()); f_out << line << "    " << ans`.
The unchecked `inp[1]` / `inp[0]` accesses are embedded with `List.get?`,
so a line with fewer than two fields has no valid result (`none`). -/
def ellippiLine {D : Type} (stod : List Char → Option D) (f : D → D → D)
    (fmt : D → List Char) (line : List Char) : Option (List Char) :=
  let inp := split_words line
  match inp.get? 1 with
  | none => none
  | some w1 =>
    match stod w1 with
    | none => none
    | some k =>
      match inp.get? 0 with
      | none => none
      | some w0 =>
        match stod w0 with
        | none => none
        | some v => some (line ++ (' ' :: ' ' :: ' ' :: ' ' :: []) ++ fmt (f k v))

/-- Model of the whole line loop of boost_ellippi_f64.cpp; `none` when any
line has no well-defined result. -/
def ellippiRun {D : Type} (stod : List Char → Option D) (f : D → D → D)
    (fmt : D → List Char) : List (List Char) → Option (List (List Char))
  | [] => some []
  | l :: ls =>
    match ellippiLine stod f fmt l with
    | none => none
    | some o =>
      match ellippiRun stod f fmt ls with
      | none => none
      | some os => some (o :: os)

/-- Model of `main` of boost_ellippi_f64.cpp at the file level:
`fIn = none` / `fOutOpen = false` model unopenable files; the program
then prints the diagnostic to `cerr` and returns 1, otherwise it runs the
loop and returns 0.  Result is `(exit code, cerr lines, output lines)`,
`none` when the run is not well-defined. -/
def ellippiMain {D : Type} (stod : List Char → Option D) (f : D → D → D)
    (fmt : D → List Char) (fIn : Option (List (List Char))) (fOutOpen : Bool) :
    Option (Nat × List (List Char) × List (List Char)) :=
  match fIn with
  | none => some (1, cannotOpenMsg :: [], [])
  | some lines =>
    if fOutOpen then
      match ellippiRun stod f fmt lines with
      | none => none
      | some out => some (0, [], out)
    else some (1, cannotOpenMsg :: [], [])

/-- Digit class `[0-9]` of the extractor's regular expression. -/
def isDig (c : Char) : Bool := decide ('0' ≤ c) && decide (c ≤ '9')

/-- One optional leading sign, `[-+]?`. -/
def dropSign : List Char → List Char
  | [] => []
  | c :: cs => if c = '+' || c = '-' then cs else c :: cs

/-- The optional exponent part and end of the captured literal:
`(?:[eE][-+]?[0-9]+)?` followed by the end of the string. -/
def checkExp : List Char → Bool
  | [] => true
  | c :: cs =>
    (c = 'e' || c = 'E') &&
      (let cs' := dropSign cs
       !(cs'.takeWhile isDig).isEmpty && (cs'.dropWhile isDig).isEmpty)

/-- The part of the literal after the optional sign:
`[0-9]*\.?[0-9]+(?:[eE][-+]?[0-9]+)?` as a whole-string recognizer: the
leading digit run, then either a decimal point with a further digit run
and the exponent part, or (no decimal point) the digit run itself must be
non-empty and be followed directly by the exponent part. -/
def afterSign (s1 : List Char) : Bool :=
  if (s1.dropWhile isDig).head? = some '.' then
    !(((s1.dropWhile isDig).tail).takeWhile isDig).isEmpty &&
      checkExp (((s1.dropWhile isDig).tail).dropWhile isDig)
  else !(s1.takeWhile isDig).isEmpty && checkExp (s1.dropWhile isDig)

/-- Whole-string recognizer for the capture group of `number_pattern` in
src/cpp/extract_test_data.cpp, the ECMAScript regular expression
`[-+]?[0-9]*\.?[0-9]+(?:[eE][-+]?[0-9]+)?`. -/
def number_pattern (s : List Char) : Bool := afterSign (dropSign s)

/-- The characters a captured numeric literal can consist of. -/
def isNumChar (c : Char) : Bool :=
  isDig c || c = '+' || c = '-' || c = '.' || c = 'e' || c = 'E'

/-- Literal `SC_(` that opens one wrapped numeric literal. -/
def scOpen : List Char := 'S' :: 'C' :: '_' :: '(' :: []

/-- Row marker `SC_` tested with `line.find("SC_")`. -/
def scMark : List Char := 'S' :: 'C' :: '_' :: []

/-- Start-of-block sentinel tested with `line.find("static const std::array")`. -/
def startMark : List Char := "static const std::array".toList

/-- Closing-brace marker tested with `line.find("\x7d\x7d")`. -/
def closeMark : List Char := '\x7d' :: '\x7d' :: []

/-- Does `s` start with the pattern `p`? -/
def startsWith : List Char → List Char → Bool
  | [], _ => true
  | _ :: _, [] => false
  | p :: ps, c :: cs => p = c && startsWith ps cs

/-- Does `s` contain `p` as a contiguous substring?  Models
`std::string::find(p) != npos`. -/
def containsSub (p : List Char) : List Char → Bool
  | [] => startsWith p []
  | c :: cs => startsWith p (c :: cs) || containsSub p cs

/-- Split a string at its first `)`: `scanClose s = some (b, a)` when
`s = b ++ ')' :: a` with no `)` in `b`, and `none` when `s` has no `)`. -/
def scanClose : List Char → Option (List Char × List Char)
  | [] => none
  | c :: cs =>
    if c = ')' then some ([], cs)
    else
      match scanClose cs with
      | none => none
      | some (b, a) => some (c :: b, a)

/-- Fuelled scan of one line for successive non-overlapping matches of the
regular expression `SC_\(([-+]?[0-9]*\.?[0-9]+(?:[eE][-+]?[0-9]+)?)\)`, as
`std::sregex_iterator` performs it: at each position, the pattern matches
exactly when the text starts with `SC_(` and the segment up to the first
following `)` is accepted by the capture group (the captured literal can
contain no `)`, so no other segment can be the capture); on a match the
scan resumes after the `)`, otherwise at the next character. -/
def scMatchesF : Nat → List Char → List (List Char)
  | 0, _ => []
  | _, [] => []
  | fuel + 1, c :: cs =>
    if startsWith scOpen (c :: cs) then
      match scanClose (List.drop 3 cs) with
      | some (inside, after) =>
        if number_pattern inside then inside :: scMatchesF fuel after
        else scMatchesF fuel cs
      | none => scMatchesF fuel cs
    else scMatchesF fuel cs

/-- All captures of `number_pattern` on one line, in left-to-right order of
appearance (`std::sregex_iterator` loop in `extract_ipp_data`). -/
def scMatches (s : List Char) : List (List Char) := scMatchesF s.length s

/-- The processing of one in-block line of `extract_ipp_data`: when the
line contains `SC_`, concatenate every capture followed by one space and
emit the result without its final character; a line with no capture (or
without the row marker) emits nothing. -/
def rowOutput (line : List Char) : Option (List Char) :=
  if containsSub scMark line then
    let cleaned := ((scMatches line).map (fun m => m ++ ' ' :: [])).flatten
    if cleaned.isEmpty then none else some cleaned.dropLast
  else none

/-- The second loop of `extract_ipp_data`: stop at a line that contains
the closing-brace marker and whose length is below 5, otherwise emit the
line's row output (if any) and continue. -/
def processBlock : List (List Char) → List (List Char)
  | [] => []
  | l :: ls =>
    if containsSub closeMark l && decide (l.length < 5) then []
    else
      match rowOutput l with
      | some o => o :: processBlock ls
      | none => processBlock ls

/-- The first loop of `extract_ipp_data`: discard lines up to and
including the first one containing the array-declaration marker; when no
line contains it, the whole input is consumed. -/
def dropUntilStart : List (List Char) → List (List Char)
  | [] => []
  | l :: ls => if containsSub startMark l then ls else dropUntilStart ls

/-- Model of `extract_ipp_data` (src/cpp/extract_test_data.cpp) on the
input file's lines: the lines written to the output file. -/
def extract_ipp_data (input : List (List Char)) : List (List Char) :=
  processBlock (dropUntilStart input)

/-- Space-separated join, used to state what one emitted row looks like. -/
def spaceJoin : List (List Char) → List Char
  | [] => []
  | m :: [] => m
  | m :: ms => m ++ ' ' :: spaceJoin ms

/-- Reassemble a line from a leading gap and a list of
(capture, following gap) pairs; used to state that the captured literals
occur in the line, wrapped and in left-to-right order. -/
def assemble (g0 : List Char) (ps : List (List Char × List Char)) : List Char :=
  g0 ++ (ps.map (fun p => scOpen ++ p.1 ++ ')' :: p.2)).flatten

/-- Whitespace trim at both ends, used only to state the spec's
trimmed-content reading of the block terminator. -/
def trimWs (s : List Char) : List Char :=
  ((s.dropWhile wsChar).reverse.dropWhile wsChar).reverse

/-- Modelled from the spec: an optional sign. -/
def signOpt (sg : List Char) : Prop := sg = [] ∨ sg = '+' :: [] ∨ sg = '-' :: []

/-- All characters are digits. -/
def digitsStr (d : List Char) : Prop := ∀ c ∈ d, isDig c = true

/-- Modelled from the spec: an optional exponent marker with optional sign
and digits. -/
def expOpt (ex : List Char) : Prop :=
  ex = [] ∨ ∃ m sg ds, ex = m :: (sg ++ ds) ∧ (m = 'e' ∨ m = 'E') ∧
    signOpt sg ∧ ds ≠ [] ∧ digitsStr ds

/-- Modelled from the spec: "optional sign, digits, optional decimal point
with digits, and an optional exponent marker with optional sign and
digits" — leading digits required, as a whole-string recognizer. -/
def specLiteralGrammar (s : List Char) : Bool :=
  let s1 := dropSign s
  let d1 := s1.takeWhile isDig
  let r1 := s1.dropWhile isDig
  !d1.isEmpty &&
    match r1 with
    | '.' :: r2 => !(r2.takeWhile isDig).isEmpty && checkExp (r2.dropWhile isDig)
    | _ => checkExp r1

/-- Declarative form of the literal grammar the code's pattern accepts:
optional sign, optional digits, optional decimal point, required digits,
optional exponent (leading digits may be absent). -/
def floatGrammarP (s : List Char) : Prop :=
  ∃ sg a d b ex, s = sg ++ a ++ d ++ b ++ ex ∧ signOpt sg ∧ digitsStr a ∧
    (d = [] ∨ d = '.' :: []) ∧ b ≠ [] ∧ digitsStr b ∧ expOpt ex

/-- Concrete stand-in for `std::stod` in witnesses: always parses. -/
def stodN : List Char → Option Nat := fun s => some s.length

/-- Concrete stand-in for `std::stod` that fails on the token `x`, as the
real `std::stod` throws on a token with no leading numeric part. -/
def stodX : List Char → Option Nat := fun s => if s = 'x' :: [] then none else some s.length

/-- Concrete numeric function of list arity for witnesses. -/
def funcN : List Nat → Nat := fun l => l.foldl Nat.add 0

/-- Concrete binary numeric function for witnesses. -/
def fN : Nat → Nat → Nat := fun a b => a + b

/-- Concrete 17-digit formatter stand-in for witnesses. -/
def fmtN : Nat → List Char := fun n => List.replicate n 'z'

lemma ellippiLine_short {D : Type} (stod : List Char → Option D) (f : D → D → D)
    (fmt : D → List Char) (line : List Char) (h : (split_words line).length < 2) :
    ellippiLine stod f fmt line = none := by
  have hnone : (split_words line).get? 1 = none := List.get?_eq_none.mpr (by omega)
  simp only [ellippiLine, hnone]

/-- C10: in the whitespace-delimited generator variant the accesses
`inp[1]` and `inp[0]` carry no bounds check, so in this total embedding a
run over an input containing a line with fewer than two
whitespace-separated fields (an empty line included) has no valid
result. -/
theorem C10_unchecked_indexing {D : Type} (stod : List Char → Option D) (f : D → D → D)
    (fmt : D → List Char) (lines : List (List Char))
    (h : ∃ l ∈ lines, (split_words l).length < 2) :
    ellippiRun stod f fmt lines = none := by
  induction lines with
  | nil => rcases h with ⟨l, hl, _⟩; cases hl
  | cons l ls ih =>
    rcases h with ⟨b, hb, hlen⟩
    cases hb with
    | head => simp only [ellippiRun, ellippiLine_short stod f fmt _ hlen]
    | tail _ hb =>
      have hrest : ellippiRun stod f fmt ls = none := ih ⟨b, hb, hlen⟩
      simp only [ellippiRun, hrest]
      cases ellippiLine stod f fmt l <;> rfl

/-- C10 witness: the run over the single empty line has no valid result. -/
theorem C10_witness : ellippiRun stodN fN fmtN ([] :: []) = none :=
  C10_unchecked_indexing stodN fN fmtN ([] :: []) (by decide)

/-- C1 counterexample: the whitespace-delimited generator does not skip an
empty input line; with the empty line present the whole run has no valid
result, while the same input without it is processed fine. -/
theorem C1_cex :
    ellippiRun stodN fN fmtN ([] :: ('1' :: ' ' :: '2' :: []) :: []) = none ∧
      ellippiRun stodN fN fmtN (('1' :: ' ' :: '2' :: []) :: []) ≠ none := by
  decide

/-- C1 (amended): in the comma-delimited generator `process_carlson`, a
line that is empty or splits into fewer than `nargs` fields is skipped
silently, produces no output line, and processing continues with the next
line. -/
theorem C1_amended_skip {D : Type} (stod : List Char → Option D) (func : List D → D)
    (fmt : D → List Char) (nargs : Nat) (line : List Char) (rest : List (List Char))
    (h : line = [] ∨ (commaSplit line).length < nargs) :
    process_carlson stod func fmt nargs (line :: rest) =
      process_carlson stod func fmt nargs rest := by
  rcases h with h | h
  · subst h
    simp [process_carlson]
  · by_cases he : line.isEmpty
    · simp [process_carlson, he]
    · simp [process_carlson, he, h]

/-- C1 witness: a concrete empty line and a concrete one-field line are
both skipped by the three-argument generator. -/
theorem C1_witness :
    process_carlson stodN funcN fmtN 3 (([] : List Char) :: ('7' :: ',' :: '8' :: []) :: []) =
      process_carlson stodN funcN fmtN 3 (('7' :: ',' :: '8' :: []) :: []) :=
  C1_amended_skip stodN funcN fmtN 3 [] (('7' :: ',' :: '8' :: []) :: []) (Or.inl rfl)

/-- C2 counterexample: the carlson generator performs no open check; with
an unopenable input file it prints no diagnostic and its process exits
with status 0, not 1. -/
theorem C2_cex : carlsonMain stodN funcN fmtN 3 none = some (0, []) := rfl

/-- C2 (amended): boost_ellippi_f64 prints the diagnostic and exits with
status 1 when the input or the output file cannot be opened, and exits
with status 0 when both open and every line is processed; the carlson
generator performs no open check and exits with status 0 with no
diagnostic even when its input file cannot be opened. -/
theorem C2_amended_exit {D D' : Type} (stod : List Char → Option D) (f : D → D → D)
    (fmt : D → List Char) (stodC : List Char → Option D') (funcC : List D' → D')
    (fmtC : D' → List Char) (nargs : Nat) :
    (∀ (fIn : Option (List (List Char))) (fOut : Bool), fIn = none ∨ fOut = false →
        ellippiMain stod f fmt fIn fOut = some (1, cannotOpenMsg :: [], [])) ∧
      (∀ lines out, ellippiRun stod f fmt lines = some out →
        ellippiMain stod f fmt (some lines) true = some (0, [], out)) ∧
      carlsonMain stodC funcC fmtC nargs none = some (0, []) := by
  refine ⟨?_, ?_, ?_⟩
  · intro fIn fOut h
    rcases h with h | h
    · subst h; rfl
    · subst h; cases fIn <;> rfl
  · intro lines out h
    simp [ellippiMain, h]
  · rfl

/-- C2 witness: concrete unopenable input file for both programs. -/
theorem C2_witness :
    ellippiMain stodN fN fmtN none true = some (1, cannotOpenMsg :: [], []) :=
  (C2_amended_exit stodN fN fmtN stodN funcN fmtN 3).1 none true (Or.inl rfl)

/-- C3 counterexample: a row with enough fields whose first field does not
parse makes `std::stod` throw, so the run aborts and no completed output
with the claimed line count exists, although the input has two non-empty
rows with at least one field each. -/
theorem C3_cex :
    process_carlson stodX funcN fmtN 1 (('1' :: []) :: ('x' :: []) :: []) = none ∧
      (((('1' :: []) : List Char) :: ('x' :: []) :: []).filter (validRow 1)).length = 2 := by
  decide

/-- C3 (amended): whenever a carlson generator run completes (no field of
a kept row fails to parse), the number of output lines equals the number
of input rows that are non-empty and have at least `nargs` fields. -/
theorem C3_amended_count {D : Type} (stod : List Char → Option D) (func : List D → D)
    (fmt : D → List Char) (nargs : Nat) (lines : List (List Char))
    (out : List (List Char)) (h : process_carlson stod func fmt nargs lines = some out) :
    out.length = (lines.filter (validRow nargs)).length := by
  induction lines generalizing out with
  | nil =>
    simp only [process_carlson, Option.some.injEq] at h
    subst h
    rfl
  | cons line rest ih =>
    simp only [process_carlson] at h
    by_cases he : line.isEmpty
    · rw [if_pos he] at h
      have hv : validRow nargs line = false := by simp [validRow, he]
      simp only [List.filter, hv]
      exact ih _ h
    · rw [if_neg he] at h
      by_cases hl : (commaSplit line).length < nargs
      · rw [if_pos hl] at h
        have hv : validRow nargs line = false := by
          simp [validRow, he]
          omega
        simp only [List.filter, hv]
        exact ih _ h
      · rw [if_neg hl] at h
        have hv : validRow nargs line = true := by
          simp [validRow, he]
          omega
        simp only [List.filter, hv]
        cases hargs : stodAll stod ((commaSplit line).take nargs) with
        | none => rw [hargs] at h; cases h
        | some args =>
          rw [hargs] at h
          cases hrest : process_carlson stod func fmt nargs rest with
          | none => rw [hrest] at h; cases h
          | some out' =>
            rw [hrest] at h
            cases h
            simpa using ih _ hrest

/-- C3 witness: a concrete completed run with one kept row and one empty
row yields exactly one output line. -/
theorem C3_witness :
    (((('z' :: ',' :: 'z' :: []) : List Char) :: []).length) =
      (((('5' :: []) : List Char) :: ([] : List Char) :: []).filter (validRow 1)).length :=
  C3_amended_count stodN funcN fmtN 1 (('5' :: []) :: ([] : List Char) :: []) _ rfl

/-- C8: the generators are deterministic in their input and function: two
runs on equal inputs produce identical output, for the comma-delimited
and the whitespace-delimited variant alike. -/
theorem C8_deterministic {D D' : Type} (stod : List Char → Option D) (func : List D → D)
    (fmt : D → List Char) (nargs : Nat) (l₁ l₂ : List (List Char))
    (stodE : List Char → Option D') (f : D' → D' → D') (fmtE : D' → List Char)
    (m₁ m₂ : List (List Char)) (h : l₁ = l₂) (h' : m₁ = m₂) :
    process_carlson stod func fmt nargs l₁ = process_carlson stod func fmt nargs l₂ ∧
      ellippiRun stodE f fmtE m₁ = ellippiRun stodE f fmtE m₂ := by
  subst h
  subst h'
  exact ⟨rfl, rfl⟩

/-- C8 witness: two runs of each variant on a concrete input coincide. -/
theorem C8_witness :
    process_carlson stodN funcN fmtN 1 (('5' :: []) :: []) =
        process_carlson stodN funcN fmtN 1 (('5' :: []) :: []) ∧
      ellippiRun stodN fN fmtN (('1' :: ' ' :: '2' :: []) :: []) =
        ellippiRun stodN fN fmtN (('1' :: ' ' :: '2' :: []) :: []) :=
  C8_deterministic stodN funcN fmtN 1 _ _ stodN fN fmtN _ _ rfl rfl

lemma dropUntilStart_eq_nil (input : List (List Char))
    (h : ∀ l ∈ input, containsSub startMark l = false) : dropUntilStart input = [] := by
  induction input with
  | nil => rfl
  | cons l ls ih =>
    have hl : containsSub startMark l = false := h l (List.mem_cons_self l ls)
    simp only [dropUntilStart, hl]
    exact ih (fun q hq => h q (List.mem_cons_of_mem l hq))

/-- C5: a source with no line containing the array-declaration start
marker produces an empty output file (and no error: the extractor is a
total function on its input lines). -/
theorem C5_no_start_marker (input : List (List Char))
    (h : ∀ l ∈ input, containsSub startMark l = false) : extract_ipp_data input = [] := by
  unfold extract_ipp_data
  rw [dropUntilStart_eq_nil input h]
  rfl

/-- C5 witness: a concrete source with no start marker. -/
theorem C5_witness : extract_ipp_data (('h' :: 'i' :: []) :: ("SC_(1.0)".toList) :: []) = [] :=
  C5_no_start_marker (('h' :: 'i' :: []) :: ("SC_(1.0)".toList) :: []) (by decide)

/-- C6 counterexample: a line after the start marker whose trimmed content
is the closing-brace marker (length 2, below the threshold 5) but whose
raw length is 8 does not terminate the scan: the row after it is still
extracted. -/
theorem C6_cex :
    trimWs ("      \x7d\x7d".toList) = closeMark ∧ closeMark.length < 5 ∧
      extract_ipp_data
          (startMark :: ("      \x7d\x7d".toList) :: ("SC_(1.0)".toList) :: []) =
        ("1.0".toList) :: [] := by
  decide

/-- C6 (amended): once a line after the start marker that contains the
closing-brace marker and whose raw (untrimmed) length is below 5 is
encountered, the scan terminates: no lines after it contribute to the
output, whatever they contain. -/
theorem C6_amended_stop (pre : List (List Char)) (l : List Char)
    (post₁ post₂ : List (List Char))
    (hpre : ∀ p ∈ pre, ¬(containsSub closeMark p = true ∧ p.length < 5))
    (hcl : containsSub closeMark l = true) (hl5 : l.length < 5) :
    processBlock (pre ++ l :: post₁) = processBlock (pre ++ l :: post₂) := by
  induction pre with
  | nil => simp [processBlock, hcl, hl5]
  | cons p ps ih =>
    have hp := hpre p (List.mem_cons_self p ps)
    have hc : (containsSub closeMark p && decide (p.length < 5)) = false := by
      cases hcs : containsSub closeMark p with
      | false => rfl
      | true =>
        have h2 : ¬ p.length < 5 := fun h2 => hp ⟨hcs, h2⟩
        simp [h2]
    have ih' := ih (fun q hq => hpre q (List.mem_cons_of_mem p hq))
    simp only [List.cons_append, processBlock, hc, Bool.false_eq_true, if_false]
    cases rowOutput p <;> simp [ih']

/-- C6 witness: a concrete block where a raw-short closing line hides a
later row marker from the output. -/
theorem C6_witness :
    processBlock (("SC_(2)".toList) :: ('\x7d' :: '\x7d' :: []) :: ("SC_(3)".toList) :: []) =
      processBlock (("SC_(2)".toList) :: ('\x7d' :: '\x7d' :: []) :: []) :=
  C6_amended_stop (("SC_(2)".toList) :: []) ('\x7d' :: '\x7d' :: [])
    (("SC_(3)".toList) :: []) [] (by decide) (by decide) (by decide)

lemma splitWordsAux_flatten (s : List Char) : ∀ acc,
    (splitWordsAux s acc).flatten = acc.reverse ++ s.filter (fun c => !wsChar c) := by
  induction s with
  | nil =>
    intro acc
    cases acc <;> simp [splitWordsAux]
  | cons c cs ih =>
    intro acc
    by_cases hw : wsChar c
    · cases acc <;> simp [splitWordsAux, hw, ih]
    · rw [show splitWordsAux (c :: cs) acc = splitWordsAux cs (c :: acc) by
        simp [splitWordsAux, hw]]
      rw [ih (c :: acc)]
      simp [hw]

lemma splitWordsAux_tokens (s : List Char) : ∀ acc, (∀ c ∈ acc, wsChar c = false) →
    ∀ t ∈ splitWordsAux s acc, t ≠ [] ∧ ∀ c ∈ t, wsChar c = false := by
  induction s with
  | nil =>
    intro acc hacc t ht
    cases acc with
    | nil => simp [splitWordsAux] at ht
    | cons a as =>
      simp only [splitWordsAux, List.isEmpty_cons, if_false, Bool.false_eq_true,
        List.mem_singleton] at ht
      subst ht
      refine ⟨by simp, ?_⟩
      intro c hc
      exact hacc c (List.mem_reverse.mp hc)
  | cons c cs ih =>
    intro acc hacc t ht
    by_cases hw : wsChar c
    · cases acc with
      | nil =>
        simp only [splitWordsAux, hw, if_true, List.isEmpty_nil] at ht
        exact ih [] (by simp) t ht
      | cons a as =>
        simp only [splitWordsAux, hw, if_true, List.isEmpty_cons, Bool.false_eq_true,
          if_false, List.mem_cons] at ht
        rcases ht with ht | ht
        · subst ht
          refine ⟨by simp, ?_⟩
          intro d hd
          exact hacc d (List.mem_reverse.mp hd)
        · exact ih [] (by simp) t ht
    · simp only [splitWordsAux, hw, if_false, Bool.false_eq_true] at ht
      refine ih (c :: acc) ?_ t ht
      intro d hd
      rcases List.mem_cons.mp hd with hd | hd
      · subst hd; exact Bool.not_eq_true _ |>.mp hw
      · exact hacc d hd

lemma splitWordsAux_sep (a : List Char) (c : Char) (b : List Char) (h : wsChar c = true) :
    ∀ acc, splitWordsAux (a ++ c :: b) acc = splitWordsAux a acc ++ split_words b := by
  induction a with
  | nil =>
    intro acc
    cases acc <;> simp [splitWordsAux, h, split_words]
  | cons d ds ih =>
    intro acc
    by_cases hd : wsChar d
    · cases acc <;> simp [splitWordsAux, hd, ih]
    · simp [splitWordsAux, hd, ih]

lemma splitWordsAux_solid (s : List Char) (hs : ∀ c ∈ s, wsChar c = false) :
    ∀ acc, splitWordsAux s acc =
      if (acc.reverse ++ s).isEmpty then [] else (acc.reverse ++ s) :: [] := by
  induction s with
  | nil =>
    intro acc
    cases acc <;> simp [splitWordsAux]
  | cons c cs ih =>
    intro acc
    have hc : wsChar c = false := hs c (List.mem_cons_self c cs)
    have ih' := ih (fun d hd => hs d (List.mem_cons_of_mem c hd)) (c :: acc)
    simp only [splitWordsAux, hc, Bool.false_eq_true, if_false]
    rw [ih']
    simp

/-- C9: `split_words` returns exactly the maximal whitespace-free
substrings of its input in left-to-right order: the tokens are non-empty
and whitespace-free, their concatenation is the input minus its
whitespace (so every non-whitespace character lands in exactly one token,
in order), the result is empty exactly when the input is all whitespace,
splitting is unchanged by cutting at any whitespace character (so tokens
never span whitespace), and a non-empty whitespace-free input is returned
whole as one token (maximality). -/
theorem C9_split_words_spec (s : List Char) :
    (split_words s).flatten = s.filter (fun c => !wsChar c) ∧
      (∀ t ∈ split_words s, t ≠ [] ∧ ∀ c ∈ t, wsChar c = false) ∧
      (split_words s = [] ↔ ∀ c ∈ s, wsChar c = true) ∧
      (∀ a b c, wsChar c = true → s = a ++ c :: b →
        split_words s = split_words a ++ split_words b) ∧
      ((s ≠ [] ∧ ∀ c ∈ s, wsChar c = false) → split_words s = s :: []) := by
  refine ⟨?_, ?_, ?_, ?_, ?_⟩
  · simpa using splitWordsAux_flatten s []
  · exact splitWordsAux_tokens s [] (by simp)
  · constructor
    · intro h c hc
      have hf := splitWordsAux_flatten s []
      rw [show split_words s = splitWordsAux s [] from rfl] at h
      rw [h] at hf
      have : s.filter (fun c => !wsChar c) = [] := by simpa using hf.symm
      have := List.filter_eq_nil_iff.mp this c hc
      simpa using this
    · intro h
      cases hsw : split_words s with
      | nil => rfl
      | cons t ts =>
        have hf := splitWordsAux_flatten s []
        rw [show splitWordsAux s [] = split_words s from rfl, hsw] at hf
        have hfil : s.filter (fun c => !wsChar c) = [] := by
          apply List.filter_eq_nil_iff.mpr
          intro c hc
          simp [h c hc]
        rw [hfil] at hf
        have ht := (splitWordsAux_tokens s [] (by simp) t (by rw [show splitWordsAux s [] = split_words s from rfl, hsw]; exact List.mem_cons_self t ts)).1
        simp only [List.nil_append, List.flatten_cons] at hf
        exact absurd (List.append_eq_nil.mp hf).1 ht
  · intro a b c hc hs
    subst hs
    simpa using splitWordsAux_sep a c b hc []
  · intro ⟨hne, hfree⟩
    have := splitWordsAux_solid s hfree []
    simp only [List.reverse_nil, List.nil_append] at this
    rw [show split_words s = splitWordsAux s [] from rfl, this]
    simp [hne]

/-- C9 witness: concrete inputs exercising the characterization. -/
theorem C9_witness : split_words ('a' :: 'b' :: []) = ('a' :: 'b' :: []) :: [] :=
  (C9_split_words_spec ('a' :: 'b' :: [])).2.2.2.2 ⟨by decide, by decide⟩

lemma takeWhile_append_all {p : Char → Bool} (a r : List Char) (ha : ∀ c ∈ a, p c = true) :
    (a ++ r).takeWhile p = a ++ r.takeWhile p := by
  induction a with
  | nil => rfl
  | cons c cs ih =>
    have hc : p c = true := ha c (List.mem_cons_self c cs)
    simp only [List.cons_append, List.takeWhile_cons_of_pos hc]
    rw [ih (fun d hd => ha d (List.mem_cons_of_mem c hd))]

lemma dropWhile_append_all {p : Char → Bool} (a r : List Char) (ha : ∀ c ∈ a, p c = true) :
    (a ++ r).dropWhile p = r.dropWhile p := by
  induction a with
  | nil => rfl
  | cons c cs ih =>
    have hc : p c = true := ha c (List.mem_cons_self c cs)
    simp only [List.cons_append, List.dropWhile_cons_of_pos hc]
    exact ih (fun d hd => ha d (List.mem_cons_of_mem c hd))

lemma takeWhile_all {p : Char → Bool} (a : List Char) (ha : ∀ c ∈ a, p c = true) :
    a.takeWhile p = a := by
  have := takeWhile_append_all a [] ha
  simpa using this

lemma dropWhile_all {p : Char → Bool} (a : List Char) (ha : ∀ c ∈ a, p c = true) :
    a.dropWhile p = [] := by
  have := dropWhile_append_all a [] ha
  simpa using this

lemma isDig_ne_sign (c : Char) (h : isDig c = true) : c ≠ '+' ∧ c ≠ '-' := by
  constructor <;> rintro rfl <;> exact absurd h (by decide)

lemma dropSign_of_append (sg rest : List Char) (hsg : signOpt sg)
    (h : ∀ c cs, rest = c :: cs → c ≠ '+' ∧ c ≠ '-') : dropSign (sg ++ rest) = rest := by
  rcases hsg with rfl | rfl | rfl
  · cases rest with
    | nil => rfl
    | cons c cs =>
      have hc := h c cs rfl
      simp [dropSign, hc.1, hc.2]
  · simp [dropSign]
  · simp [dropSign]

lemma expOpt_ends (ex : List Char) (h : expOpt ex) :
    ex.takeWhile isDig = [] ∧ ex.dropWhile isDig = ex ∧
      (∀ c cs, ex = c :: cs → c ≠ '+' ∧ c ≠ '-' ∧ c ≠ '.') := by
  rcases h with rfl | ⟨m, sg, ds, rfl, hm, _, _, _⟩
  · exact ⟨rfl, rfl, fun c cs h => by cases h⟩
  · rcases hm with rfl | rfl
    · refine ⟨List.takeWhile_cons_of_neg (by decide), List.dropWhile_cons_of_neg (by decide), ?_⟩
      intro c cs h
      cases h
      exact ⟨by decide, by decide, by decide⟩
    · refine ⟨List.takeWhile_cons_of_neg (by decide), List.dropWhile_cons_of_neg (by decide), ?_⟩
      intro c cs h
      cases h
      exact ⟨by decide, by decide, by decide⟩

lemma checkExp_iff (r : List Char) : checkExp r = true ↔ expOpt r := by
  constructor
  · intro h
    cases r with
    | nil => exact Or.inl rfl
    | cons c cs =>
      simp only [checkExp, Bool.and_eq_true, Bool.or_eq_true, decide_eq_true_eq,
        Bool.not_eq_eq_eq_not, Bool.not_false, List.isEmpty_eq_true] at h
      obtain ⟨hc, hne, hdrop⟩ := h
      obtain ⟨sg, hsg, hcs⟩ : ∃ sg, signOpt sg ∧ cs = sg ++ dropSign cs := by
        cases cs with
        | nil => exact ⟨[], Or.inl rfl, rfl⟩
        | cons d ds =>
          by_cases hd : d = '+' ∨ d = '-'
          · refine ⟨d :: [], ?_, ?_⟩
            · rcases hd with rfl | rfl
              · exact Or.inr (Or.inl rfl)
              · exact Or.inr (Or.inr rfl)
            · rcases hd with rfl | rfl <;> simp [dropSign]
          · push_neg at hd
            refine ⟨[], Or.inl rfl, ?_⟩
            simp [dropSign, hd.1, hd.2]
      have hsplit : (dropSign cs).takeWhile isDig ++ (dropSign cs).dropWhile isDig =
          dropSign cs := List.takeWhile_append_dropWhile _ _
      rw [hdrop, List.append_nil] at hsplit
      refine Or.inr ⟨c, sg, dropSign cs, by rw [← hcs], hc, hsg, ?_, ?_⟩
      · intro hnil
        rw [hnil] at hne
        simp at hne
      · intro d hd
        rw [← hsplit] at hd
        exact List.mem_takeWhile_imp hd
  · intro h
    rcases h with rfl | ⟨m, sg, ds, rfl, hm, hsg, hds, hdig⟩
    · rfl
    · have hdrop : dropSign (sg ++ ds) = ds := by
        refine dropSign_of_append sg ds hsg ?_
        intro c cs h
        subst h
        exact isDig_ne_sign c (hdig c (List.mem_cons_self c cs))
      simp only [checkExp, hdrop, Bool.and_eq_true, Bool.or_eq_true, decide_eq_true_eq]
      refine ⟨by tauto, ?_, ?_⟩
      · rw [takeWhile_all ds hdig]
        simpa using hds
      · rw [dropWhile_all ds hdig]
        rfl

lemma dropSign_decomp (s : List Char) : ∃ sg, signOpt sg ∧ s = sg ++ dropSign s := by
  cases s with
  | nil => exact ⟨[], Or.inl rfl, rfl⟩
  | cons c cs =>
    by_cases hc : c = '+' ∨ c = '-'
    · refine ⟨c :: [], ?_, ?_⟩
      · rcases hc with rfl | rfl
        · exact Or.inr (Or.inl rfl)
        · exact Or.inr (Or.inr rfl)
      · rcases hc with rfl | rfl <;> simp [dropSign]
    · push_neg at hc
      exact ⟨[], Or.inl rfl, by simp [dropSign, hc.1, hc.2]⟩

lemma number_pattern_iff_grammar (s : List Char) : number_pattern s = true ↔ floatGrammarP s := by
  constructor
  · intro h
    obtain ⟨sg, hsg, hs⟩ := dropSign_decomp s
    unfold number_pattern afterSign at h
    by_cases hh : ((dropSign s).dropWhile isDig).head? = some '.'
    · rw [if_pos hh] at h
      cases hl : (dropSign s).dropWhile isDig with
      | nil => rw [hl] at hh; cases hh
      | cons dh r2 =>
        have hdh : dh = '.' := by rw [hl] at hh; simpa using hh
        subst hdh
        rw [hl] at h
        simp only [List.tail_cons, Bool.and_eq_true, Bool.not_eq_true',
          List.isEmpty_eq_false] at h
        obtain ⟨hbne, hex⟩ := h
        have hsplit1 : (dropSign s).takeWhile isDig ++ '.' :: r2 = dropSign s := by
          rw [← hl]
          exact List.takeWhile_append_dropWhile _ _
        have hsplit2 : r2.takeWhile isDig ++ r2.dropWhile isDig = r2 :=
          List.takeWhile_append_dropWhile _ _
        have keq : s = sg ++ ((dropSign s).takeWhile isDig ++
            '.' :: (r2.takeWhile isDig ++ r2.dropWhile isDig)) := by
          conv_lhs => rw [hs]
          rw [hsplit2, hsplit1]
        refine ⟨sg, (dropSign s).takeWhile isDig, '.' :: [], r2.takeWhile isDig,
          r2.dropWhile isDig, ?_, hsg, ?_, Or.inr rfl, hbne, ?_, (checkExp_iff _).mp hex⟩
        · conv_lhs => rw [keq]
          simp
        · intro c hc
          exact List.mem_takeWhile_imp hc
        · intro c hc
          exact List.mem_takeWhile_imp hc
    · rw [if_neg hh] at h
      simp only [Bool.and_eq_true, Bool.not_eq_true', List.isEmpty_eq_false] at h
      obtain ⟨hbne, hex⟩ := h
      have keq : s = sg ++ ((dropSign s).takeWhile isDig ++ (dropSign s).dropWhile isDig) := by
        conv_lhs => rw [hs]
        rw [List.takeWhile_append_dropWhile]
      refine ⟨sg, [], [], (dropSign s).takeWhile isDig, (dropSign s).dropWhile isDig, ?_,
        hsg, ?_, Or.inl rfl, hbne, ?_, (checkExp_iff _).mp hex⟩
      · conv_lhs => rw [keq]
        simp
      · intro c hc
        cases hc
      · intro c hc
        exact List.mem_takeWhile_imp hc
  · rintro ⟨sg, a, d, b, ex, rfl, hsg, ha, hd, hb, hbd, hex⟩
    obtain ⟨hexTW, hexDW, hexHead⟩ := expOpt_ends ex hex
    have hrest : ∀ c cs, a ++ d ++ b ++ ex = c :: cs → c ≠ '+' ∧ c ≠ '-' := by
      intro c cs hcc
      cases a with
      | cons a0 as =>
        rw [List.cons_append, List.cons_append, List.cons_append] at hcc
        injection hcc with h1 h2
        subst h1
        exact isDig_ne_sign a0 (ha a0 (List.mem_cons_self a0 as))
      | nil =>
        rcases hd with rfl | rfl
        · cases b with
          | nil => exact absurd rfl hb
          | cons b0 bs =>
            simp only [List.nil_append, List.cons_append] at hcc
            injection hcc with h1 h2
            subst h1
            exact isDig_ne_sign b0 (hbd b0 (List.mem_cons_self b0 bs))
        · simp only [List.nil_append, List.cons_append] at hcc
          injection hcc with h1 h2
          subst h1
          exact ⟨by decide, by decide⟩
    have hds : dropSign (sg ++ a ++ d ++ b ++ ex) = a ++ d ++ b ++ ex := by
      rw [show sg ++ a ++ d ++ b ++ ex = sg ++ (a ++ d ++ b ++ ex) by simp]
      exact dropSign_of_append sg (a ++ d ++ b ++ ex) hsg hrest
    unfold number_pattern afterSign
    rw [hds]
    rcases hd with rfl | rfl
    · have heq : a ++ [] ++ b ++ ex = (a ++ b) ++ ex := by simp
      rw [heq]
      have hab : ∀ c ∈ a ++ b, isDig c = true := by
        intro c hc
        rcases List.mem_append.mp hc with hc | hc
        · exact ha c hc
        · exact hbd c hc
      have htw : ((a ++ b) ++ ex).takeWhile isDig = a ++ b := by
        rw [takeWhile_append_all _ _ hab, hexTW, List.append_nil]
      have hdw : ((a ++ b) ++ ex).dropWhile isDig = ex := by
        rw [dropWhile_append_all _ _ hab, hexDW]
      have hhead : ¬(((a ++ b) ++ ex).dropWhile isDig).head? = some '.' := by
        rw [hdw]
        cases hx : ex with
        | nil => simp
        | cons m ms =>
          have hm := (hexHead m ms hx).2.2
          simp [hm]
      rw [if_neg hhead, htw, hdw]
      simp only [Bool.and_eq_true, Bool.not_eq_true', List.isEmpty_eq_false]
      refine ⟨?_, (checkExp_iff ex).mpr hex⟩
      intro hnil
      exact hb (List.append_eq_nil.mp hnil).2
    · have heq : a ++ ('.' :: []) ++ b ++ ex = a ++ ('.' :: (b ++ ex)) := by simp
      rw [heq]
      have hdw : (a ++ ('.' :: (b ++ ex))).dropWhile isDig = '.' :: (b ++ ex) := by
        rw [dropWhile_append_all _ _ ha]
        exact List.dropWhile_cons_of_neg (by decide)
      have hhead : ((a ++ ('.' :: (b ++ ex))).dropWhile isDig).head? = some '.' := by
        rw [hdw]
        rfl
      rw [if_pos hhead, hdw]
      simp only [List.tail_cons, Bool.and_eq_true, Bool.not_eq_true', List.isEmpty_eq_false]
      have htw : (b ++ ex).takeWhile isDig = b := by
        rw [takeWhile_append_all _ _ hbd, hexTW, List.append_nil]
      have hdw2 : (b ++ ex).dropWhile isDig = ex := by
        rw [dropWhile_append_all _ _ hbd, hexDW]
      rw [htw, hdw2]
      exact ⟨hb, (checkExp_iff ex).mpr hex⟩

/-- C7 counterexample: the literal `.5` (no leading digits) is extracted
by the code's pattern from `SC_(.5)`, but does not match the spec's
stated grammar, which requires digits before the optional decimal
point. -/
theorem C7_cex :
    scMatches ("SC_(.5)".toList) = ('.' :: '5' :: []) :: [] ∧
      specLiteralGrammar ('.' :: '5' :: []) = false ∧
      number_pattern ('.' :: '5' :: []) = true := by
  decide

/-- C7 (amended): the set of numeric literals the extractor's pattern
accepts is exactly: an optional sign, an optional run of digits, an
optional decimal point, a required run of digits, and an optional
exponent marker with optional sign and digits — i.e. leading digits may
be absent when a decimal point with digits follows. -/
theorem C7_grammar (s : List Char) : number_pattern s = true ↔ floatGrammarP s :=
  number_pattern_iff_grammar s

lemma startsWith_iff (p : List Char) : ∀ s, startsWith p s = true ↔ ∃ t, s = p ++ t := by
  induction p with
  | nil =>
    intro s
    simp [startsWith]
  | cons x xs ih =>
    intro s
    cases s with
    | nil =>
      simp only [startsWith]
      constructor
      · intro h
        cases h
      · rintro ⟨t, ht⟩
        cases ht
    | cons c cs =>
      simp only [startsWith, Bool.and_eq_true, decide_eq_true_eq, ih cs]
      constructor
      · rintro ⟨rfl, t, rfl⟩
        exact ⟨t, rfl⟩
      · rintro ⟨t, ht⟩
        injection ht with h1 h2
        exact ⟨h1.symm, t, h2⟩

lemma scanClose_sound : ∀ s b a, scanClose s = some (b, a) →
    s = b ++ ')' :: a ∧ ∀ c ∈ b, c ≠ ')' := by
  intro s
  induction s with
  | nil => intro b a h; cases h
  | cons c cs ih =>
    intro b a h
    by_cases hc : c = ')'
    · subst hc
      simp only [scanClose, if_pos rfl] at h
      injection h with h
      injection h with h1 h2
      subst h1
      subst h2
      exact ⟨rfl, by intro c hc; cases hc⟩
    · simp only [scanClose, if_neg hc] at h
      cases hsc : scanClose cs with
      | none => rw [hsc] at h; cases h
      | some p =>
        obtain ⟨b', a'⟩ := p
        rw [hsc] at h
        injection h with h
        injection h with h1 h2
        subst h2
        obtain ⟨he, hnc⟩ := ih b' a' hsc
        subst h1
        refine ⟨by rw [List.cons_append, he], ?_⟩
        intro d hd
        rcases List.mem_cons.mp hd with rfl | hd
        · exact hc
        · exact hnc d hd

lemma scanClose_complete : ∀ b a, (∀ c ∈ b, c ≠ ')') → scanClose (b ++ ')' :: a) = some (b, a) := by
  intro b
  induction b with
  | nil => intro a _; simp [scanClose]
  | cons c cs ih =>
    intro a h
    have hc : c ≠ ')' := h c (List.mem_cons_self c cs)
    simp only [List.cons_append, scanClose, if_neg hc, List.append_eq,
      ih a (fun d hd => h d (List.mem_cons_of_mem c hd))]

lemma scMatchesF_congr : ∀ f1 : Nat, ∀ s : List Char, ∀ f2 : Nat, s.length ≤ f1 →
    s.length ≤ f2 → scMatchesF f1 s = scMatchesF f2 s := by
  intro f1
  induction f1 with
  | zero =>
    intro s f2 h1 _
    have : s = [] := List.length_eq_zero.mp (Nat.le_zero.mp h1)
    subst this
    cases f2 <;> rfl
  | succ f1 ih =>
    intro s f2 h1 h2
    cases s with
    | nil => cases f2 <;> rfl
    | cons c cs =>
      cases f2 with
      | zero => exact absurd h2 (by simp)
      | succ f2 =>
        have hcs1 : cs.length ≤ f1 := by
          simp only [List.length_cons] at h1
          omega
        have hcs2 : cs.length ≤ f2 := by
          simp only [List.length_cons] at h2
          omega
        cases hsw : startsWith scOpen (c :: cs) with
        | false =>
          simp only [scMatchesF, hsw, Bool.false_eq_true, if_false]
          exact ih cs f2 hcs1 hcs2
        | true =>
          cases hsc : scanClose (List.drop 3 cs) with
          | none =>
            simp only [scMatchesF, hsw, hsc, if_true]
            exact ih cs f2 hcs1 hcs2
          | some p =>
            obtain ⟨inside, after⟩ := p
            have hafter : after.length < cs.length := by
              obtain ⟨he, -⟩ := scanClose_sound _ _ _ hsc
              have hlen := congrArg List.length he
              simp only [List.length_drop, List.length_append, List.length_cons] at hlen
              have hle : List.length cs - 3 ≤ List.length cs := Nat.sub_le _ _
              omega
            cases hnp : number_pattern inside with
            | false =>
              simp only [scMatchesF, hsw, hsc, hnp, if_true, Bool.false_eq_true, if_false]
              exact ih cs f2 hcs1 hcs2
            | true =>
              simp only [scMatchesF, hsw, hsc, hnp, if_true]
              rw [ih after f2 (by omega) (by omega)]

lemma scMatches_unfold (c : Char) (cs : List Char) :
    scMatches (c :: cs) =
      if startsWith scOpen (c :: cs) then
        match scanClose (List.drop 3 cs) with
        | some (inside, after) =>
          if number_pattern inside then inside :: scMatches after else scMatches cs
        | none => scMatches cs
      else scMatches cs := by
  show scMatchesF (c :: cs).length (c :: cs) = _
  cases hsw : startsWith scOpen (c :: cs) with
  | false =>
    simp only [List.length_cons, scMatchesF, hsw, Bool.false_eq_true, if_false]
    rfl
  | true =>
    cases hsc : scanClose (List.drop 3 cs) with
    | none =>
      simp only [List.length_cons, scMatchesF, hsw, hsc, if_true]
      rfl
    | some p =>
      obtain ⟨inside, after⟩ := p
      cases hnp : number_pattern inside with
      | false =>
        simp only [List.length_cons, scMatchesF, hsw, hsc, hnp, if_true,
          Bool.false_eq_true, if_false]
        rfl
      | true =>
        simp only [List.length_cons, scMatchesF, hsw, hsc, hnp, if_true]
        have hafter : after.length ≤ cs.length := by
          obtain ⟨he, -⟩ := scanClose_sound _ _ _ hsc
          have hlen := congrArg List.length he
          simp only [List.length_drop, List.length_append, List.length_cons] at hlen
          have hle : List.length cs - 3 ≤ List.length cs := Nat.sub_le _ _
          omega
        rw [scMatchesF_congr cs.length after after.length hafter (Nat.le_refl _)]
        rfl

lemma floatGrammar_chars (s : List Char) (h : floatGrammarP s) :
    ∀ c ∈ s, isNumChar c = true := by
  obtain ⟨sg, a, d, b, ex, rfl, hsg, ha, hd, _, hbd, hex⟩ := h
  intro c hc
  rcases List.mem_append.mp hc with hc | hc
  rotate_left
  · rcases hex with rfl | ⟨m, sg2, ds, rfl, hm, hsg2, _, hds⟩
    · cases hc
    · rcases List.mem_cons.mp hc with rfl | hc
      · rcases hm with rfl | rfl <;> decide
      · rcases List.mem_append.mp hc with hc | hc
        · rcases hsg2 with rfl | rfl | rfl
          · cases hc
          · rcases List.mem_singleton.mp hc with rfl; decide
          · rcases List.mem_singleton.mp hc with rfl; decide
        · simp [isNumChar, hds c hc]
  rcases List.mem_append.mp hc with hc | hc
  rotate_left
  · simp [isNumChar, hbd c hc]
  rcases List.mem_append.mp hc with hc | hc
  rotate_left
  · rcases hd with rfl | rfl
    · cases hc
    · rcases List.mem_singleton.mp hc with rfl; decide
  rcases List.mem_append.mp hc with hc | hc
  · rcases hsg with rfl | rfl | rfl
    · cases hc
    · rcases List.mem_singleton.mp hc with rfl; decide
    · rcases List.mem_singleton.mp hc with rfl; decide
  · simp [isNumChar, ha c hc]

lemma number_pattern_chars (s : List Char) (h : number_pattern s = true) :
    ∀ c ∈ s, isNumChar c = true :=
  floatGrammar_chars s ((number_pattern_iff_grammar s).mp h)

lemma isNumChar_ne (c : Char) (h : isNumChar c = true) : c ≠ ')' ∧ c ≠ 'S' := by
  constructor <;> rintro rfl <;> exact absurd h (by decide)

lemma append_eq_append_of_le {α : Type} : ∀ (c a b d : List α), a ++ b = c ++ d →
    c.length ≤ a.length → ∃ e, a = c ++ e ∧ d = e ++ b := by
  intro c
  induction c with
  | nil =>
    intro a b d h _
    exact ⟨a, rfl, by simpa using h.symm⟩
  | cons x xs ih =>
    intro a b d h hl
    cases a with
    | nil => simp at hl
    | cons y ys =>
      rw [List.cons_append, List.cons_append] at h
      injection h with h1 h2
      subst h1
      obtain ⟨e, he1, he2⟩ := ih ys b d h2 (by simpa using hl)
      exact ⟨e, by rw [List.cons_append, he1], he2⟩

lemma scMatches_sound : ∀ n : Nat, ∀ s : List Char, s.length ≤ n →
    ∃ g0 ps, ps.map Prod.fst = scMatches s ∧ s = assemble g0 ps ∧
      ∀ m ∈ scMatches s, number_pattern m = true := by
  intro n
  induction n with
  | zero =>
    intro s hs
    have : s = [] := List.length_eq_zero.mp (Nat.le_zero.mp hs)
    subst this
    exact ⟨[], [], rfl, rfl, by intro m hm; cases hm⟩
  | succ n ih =>
    intro s hs
    cases s with
    | nil => exact ⟨[], [], rfl, rfl, by intro m hm; cases hm⟩
    | cons c cs =>
      have hcs : cs.length ≤ n := by
        simp only [List.length_cons] at hs
        omega
      cases hsw : startsWith scOpen (c :: cs) with
      | false =>
        rw [scMatches_unfold c cs]
        simp only [hsw, Bool.false_eq_true, if_false]
        obtain ⟨g0, ps, h1, h2, h3⟩ := ih cs hcs
        exact ⟨c :: g0, ps, h1, by simp only [assemble, List.cons_append] at h2 ⊢; rw [← h2], h3⟩
      | true =>
        cases hsc : scanClose (List.drop 3 cs) with
        | none =>
          rw [scMatches_unfold c cs]
          simp only [hsw, hsc, if_true]
          obtain ⟨g0, ps, h1, h2, h3⟩ := ih cs hcs
          exact ⟨c :: g0, ps, h1, by simp only [assemble, List.cons_append] at h2 ⊢; rw [← h2], h3⟩
        | some p =>
          obtain ⟨inside, after⟩ := p
          cases hnp : number_pattern inside with
          | false =>
            rw [scMatches_unfold c cs]
            simp only [hsw, hsc, hnp, if_true, Bool.false_eq_true, if_false]
            obtain ⟨g0, ps, h1, h2, h3⟩ := ih cs hcs
            exact ⟨c :: g0, ps, h1, by simp only [assemble, List.cons_append] at h2 ⊢; rw [← h2], h3⟩
          | true =>
            rw [scMatches_unfold c cs]
            simp only [hsw, hsc, hnp, if_true]
            obtain ⟨t, ht⟩ := (startsWith_iff scOpen (c :: cs)).mp hsw
            have htdrop : t = List.drop 3 cs := by
              rw [show scOpen ++ t = 'S' :: 'C' :: '_' :: '(' :: t from rfl] at ht
              injection ht with h1 h2
              rw [h2]
              rfl
            obtain ⟨hteq, hinc⟩ := scanClose_sound _ _ _ hsc
            have hafter : after.length ≤ n := by
              have hlen := congrArg List.length hteq
              simp only [List.length_drop, List.length_append, List.length_cons] at hlen
              have hle : List.length cs - 3 ≤ List.length cs := Nat.sub_le _ _
              omega
            obtain ⟨g0, ps, h1, h2, h3⟩ := ih after hafter
            refine ⟨[], (inside, g0) :: ps, ?_, ?_, ?_⟩
            · simp [h1]
            · rw [ht, htdrop, hteq, h2]
              simp [assemble]
            · intro m hm
              rcases List.mem_cons.mp hm with rfl | hm
              · exact hnp
              · exact h3 m hm

lemma scMatches_complete : ∀ n : Nat, ∀ s : List Char, s.length ≤ n → ∀ u m v,
    s = u ++ scOpen ++ m ++ ')' :: v → number_pattern m = true → m ∈ scMatches s := by
  intro n
  induction n with
  | zero =>
    intro s hs u m v heq _
    have hs0 : s = [] := List.length_eq_zero.mp (Nat.le_zero.mp hs)
    rw [hs0] at heq
    have hlen := congrArg List.length heq
    simp only [scOpen, List.length_nil, List.length_append, List.length_cons] at hlen
    omega
  | succ n ih =>
    intro s hs u m v heq hm
    cases s with
    | nil =>
      have hlen := congrArg List.length heq
      simp only [scOpen, List.length_nil, List.length_append, List.length_cons] at hlen
      omega
    | cons c cs =>
      have hcslen : cs.length ≤ n := by
        simp only [List.length_cons] at hs
        omega
      have hmne : ∀ ch ∈ m, ch ≠ ')' ∧ ch ≠ 'S' := fun ch hch =>
        isNumChar_ne ch (number_pattern_chars m hm ch hch)
      cases u with
      | nil =>
        have heq' : c :: cs = scOpen ++ (m ++ ')' :: v) := by
          rw [heq]
          simp
        have hsw : startsWith scOpen (c :: cs) = true :=
          (startsWith_iff _ _).mpr ⟨m ++ ')' :: v, heq'⟩
        have hdrop : List.drop 3 cs = m ++ ')' :: v := by
          rw [show scOpen ++ (m ++ ')' :: v) =
            'S' :: 'C' :: '_' :: '(' :: (m ++ ')' :: v) from rfl] at heq'
          injection heq' with h1 h2
          rw [h2]
          rfl
        have hsc : scanClose (List.drop 3 cs) = some (m, v) := by
          rw [hdrop]
          exact scanClose_complete m v (fun ch hch => (hmne ch hch).1)
        rw [scMatches_unfold c cs]
        simp only [hsw, hsc, hm, if_true]
        exact List.mem_cons_self m _
      | cons u0 u1 =>
        have hcs_eq : cs = u1 ++ scOpen ++ m ++ ')' :: v := by
          have h := congrArg List.tail heq
          simpa using h
        cases hsw : startsWith scOpen (c :: cs) with
        | false =>
          rw [scMatches_unfold c cs]
          simp only [hsw, Bool.false_eq_true, if_false]
          exact ih cs hcslen u1 m v hcs_eq hm
        | true =>
          cases hsc : scanClose (List.drop 3 cs) with
          | none =>
            rw [scMatches_unfold c cs]
            simp only [hsw, hsc, if_true]
            exact ih cs hcslen u1 m v hcs_eq hm
          | some p =>
            obtain ⟨inside, after⟩ := p
            cases hnp : number_pattern inside with
            | false =>
              rw [scMatches_unfold c cs]
              simp only [hsw, hsc, hnp, if_true, Bool.false_eq_true, if_false]
              exact ih cs hcslen u1 m v hcs_eq hm
            | true =>
              rw [scMatches_unfold c cs]
              simp only [hsw, hsc, hnp, if_true]
              obtain ⟨t, ht⟩ := (startsWith_iff scOpen (c :: cs)).mp hsw
              have htdrop : t = List.drop 3 cs := by
                rw [show scOpen ++ t = 'S' :: 'C' :: '_' :: '(' :: t from rfl] at ht
                injection ht with h1 h2
                rw [h2]
                rfl
              obtain ⟨hteq, hinc⟩ := scanClose_sound _ _ _ hsc
              have hline : c :: cs = (scOpen ++ inside ++ ')' :: []) ++ after := by
                rw [ht, htdrop, hteq]
                simp
              have hline2 : c :: cs = (u0 :: u1) ++ (scOpen ++ m ++ ')' :: v) := by
                rw [heq]
                simp
              have hins_ne : ∀ ch ∈ inside, ch ≠ 'S' := fun ch hch =>
                (isNumChar_ne ch (number_pattern_chars inside hnp ch hch)).2
              have hAlen : (scOpen ++ inside ++ ')' :: []).length ≤ (u0 :: u1).length := by
                by_contra hlt
                push_neg at hlt
                have hget1 : (c :: cs).get? (u0 :: u1).length = some 'S' := by
                  rw [hline2, List.get?_append_right (Nat.le_refl _)]
                  simp only [Nat.sub_self]
                  rfl
                have hget2 : (c :: cs).get? (u0 :: u1).length =
                    (scOpen ++ inside ++ ')' :: []).get? (u0 :: u1).length := by
                  rw [hline]
                  exact List.get?_append hlt
                have hS : (scOpen ++ inside ++ ')' :: []).get? (u0 :: u1).length = some 'S' := by
                  rw [← hget2, hget1]
                have hS2 : ('C' :: '_' :: '(' :: (inside ++ ')' :: [])).get? u1.length =
                    some 'S' := by
                  rw [show scOpen ++ inside ++ ')' :: [] =
                    'S' :: ('C' :: '_' :: '(' :: (inside ++ ')' :: [])) by simp [scOpen]] at hS
                  rw [show (u0 :: u1).length = u1.length + 1 from rfl] at hS
                  exact hS
                have hmem := List.get?_mem hS2
                simp only [List.mem_cons] at hmem
                rcases hmem with h | h | h | hmem
                · exact absurd h (by decide)
                · exact absurd h (by decide)
                · exact absurd h (by decide)
                · rcases List.mem_append.mp hmem with h | h
                  · exact (hins_ne 'S' h) rfl
                  · rcases List.mem_singleton.mp h with h
                    exact absurd h (by decide)
              have happ : (u0 :: u1) ++ (scOpen ++ m ++ ')' :: v) =
                  (scOpen ++ inside ++ ')' :: []) ++ after := hline2.symm.trans hline
              obtain ⟨e, he1, he2⟩ := append_eq_append_of_le _ _ _ _ happ hAlen
              have hafterlen : after.length ≤ n := by
                have hlen := congrArg List.length hteq
                simp only [List.length_drop, List.length_append, List.length_cons] at hlen
                have hle : List.length cs - 3 ≤ List.length cs := Nat.sub_le _ _
                omega
              have hmem : m ∈ scMatches after := by
                refine ih after hafterlen e m v ?_ hm
                rw [he2]
                simp
              exact List.mem_cons_of_mem inside hmem

lemma flatten_space_dropLast : ∀ ms : List (List Char), ms ≠ [] →
    ((ms.map (fun m => m ++ ' ' :: [])).flatten).dropLast = spaceJoin ms := by
  intro ms
  induction ms with
  | nil => intro h; exact absurd rfl h
  | cons m ms' ih =>
    intro _
    cases ms' with
    | nil => simp [spaceJoin]
    | cons m2 ms'' =>
      have hne : ((m2 :: ms'').map (fun m => m ++ ' ' :: [])).flatten ≠ [] := by
        simp
      rw [show (List.map (fun m => m ++ ' ' :: []) (m :: m2 :: ms'')).flatten =
        (m ++ ' ' :: []) ++ (List.map (fun m => m ++ ' ' :: []) (m2 :: ms'')).flatten from rfl]
      rw [List.dropLast_append_of_ne_nil _ hne, ih (by simp)]
      simp [spaceJoin]

/-- C4: on a line containing the row marker `SC_`, the captures of the
pattern are complete (every substring `SC_(m)` with `m` accepted by the
numeric grammar has its `m` among the captures), sound and ordered (the
capture list arises from a left-to-right decomposition of the line into
gaps and wrapped captures, each of which is accepted by the grammar), and
the emitted output line is exactly the space-separated join of the
captures, no line being emitted when there is no capture. -/
theorem C4_row_extraction (line : List Char) (hline : containsSub scMark line = true) :
    (∀ u m v, line = u ++ scOpen ++ m ++ ')' :: v → number_pattern m = true →
        m ∈ scMatches line) ∧
      (∃ g0 ps, ps.map Prod.fst = scMatches line ∧ line = assemble g0 ps ∧
        ∀ m ∈ scMatches line, number_pattern m = true) ∧
      (scMatches line ≠ [] → rowOutput line = some (spaceJoin (scMatches line))) ∧
      (scMatches line = [] → rowOutput line = none) := by
  refine ⟨?_, ?_, ?_, ?_⟩
  · intro u m v heq hm
    exact scMatches_complete line.length line (Nat.le_refl _) u m v heq hm
  · exact scMatches_sound line.length line (Nat.le_refl _)
  · intro hne
    unfold rowOutput
    rw [if_pos hline]
    have hj : (((scMatches line).map (fun m => m ++ ' ' :: [])).flatten).isEmpty ≠ true := by
      cases hms : scMatches line with
      | nil => exact absurd hms hne
      | cons m ms => simp
    rw [if_neg hj]
    rw [flatten_space_dropLast (scMatches line) hne]
  · intro hnil
    unfold rowOutput
    rw [if_pos hline, hnil]
    rfl

/-- C4 witness: a concrete row with two wrapped literals. -/
theorem C4_witness :
    rowOutput ("SC_(1) SC_(2)".toList) = some ('1' :: ' ' :: '2' :: []) := by
  have h := (C4_row_extraction ("SC_(1) SC_(2)".toList) (by decide)).2.2.1 (by decide)
  rw [h]
  rfl
